import Mathlib

/-!
Verification of the batch tagging core of `src/app.py` (TagSense).

The Python source is shallowly embedded:

* Python strings are Lean `String`s (sequences of unicode code points, as in
  Python); the single-character splitting, stripping and slicing operations of
  the source are implemented on the underlying `List Char`.
* The remote call `client.messages.create(...)` (lines 52-62 of app.py) is an
  effect: it is modelled by an oracle value `resp : Option String`, where
  `none` is the `except Exception` branch of lines 63-65 and `some raw` is a
  successful call whose response text is `raw`.
* The thread pool of `analyze_all` (lines 90-105) is modelled by an explicit
  completion order: `as_completed(futures)` yields each submitted batch once,
  in an arbitrary order, so a run is a fold of the per-batch buffer writes
  over a permutation of the batch indices.  The per-call nondeterminism of the
  remote service is an oracle `Nat → Option String` keyed by the batch's start
  position (start positions are distinct across batches of one run).
-/

/-- Line 9 of app.py: `BATCH_SIZE  = 20`. -/
def BATCH_SIZE : Nat := 20

/-- Line 10 of app.py: `MAX_WORKERS = 4`. -/
def MAX_WORKERS : Nat := 4

/-- Python `str.strip()` on a list of characters: drop whitespace from both
ends (line 62 `raw.strip()`, line 67 `line.strip()`, lines 74-75 `.strip()`). -/
def pyStripChars (cs : List Char) : List Char :=
  ((cs.dropWhile Char.isWhitespace).reverse.dropWhile Char.isWhitespace).reverse

/-- Python `str.strip()` lifted to `String`. -/
def pyStrip (s : String) : String :=
  String.mk (pyStripChars s.data)

/-- Python `str.splitlines()` (line 67 `text.splitlines()`): split at line
boundaries, with a carriage-return-newline pair counting as one boundary and
no empty trailing piece for a terminated last line.  The accumulator holds the
current line reversed. -/
def splitlinesAux : List Char → List Char → List (List Char)
  | [], acc => if acc.isEmpty then [] else [acc.reverse]
  | '\r' :: '\n' :: rest, acc => acc.reverse :: splitlinesAux rest []
  | '\n' :: rest, acc => acc.reverse :: splitlinesAux rest []
  | '\r' :: rest, acc => acc.reverse :: splitlinesAux rest []
  | c :: rest, acc => splitlinesAux rest (c :: acc)

/-- Python `str.splitlines()` lifted to `String`. -/
def splitlines (s : String) : List String :=
  (splitlinesAux s.data []).map String.mk

/-- Python `s.split(sep, 1)` for a one-character separator, as used on
lines 72-75 of app.py with separators `"."`, `"|"` and `":"`: `none` when the
separator does not occur (in Python, tuple unpacking or the `[1]` index then
raises, landing in the `except` branch), otherwise the pieces before and
after its first occurrence. -/
def splitOnceChar (sep : Char) : List Char → Option (List Char × List Char)
  | [] => none
  | c :: rest =>
    if c = sep then some ([], rest)
    else
      match splitOnceChar sep rest with
      | none => none
      | some (a, b) => some (c :: a, b)

/-- Python `s.split(sep)` without a count, for a one-character separator
(line 75 of app.py, separator `","`): always at least one piece, the empty
string splitting to one empty piece. -/
def splitAllChar (sep : Char) : List Char → List (List Char)
  | [] => [[]]
  | c :: rest =>
    if c = sep then [] :: splitAllChar sep rest
    else
      match splitAllChar sep rest with
      | [] => [[c]]
      | a :: as => (c :: a) :: as

/-- Lines 70-80 of app.py, the body of the per-line parsing loop.  A line
`"1. メインタグ: xxx | サブタグ: yyy, zzz"` is cut at the first `"."`, the
remainder at the first `"|"`; the main part keeps what follows its first
`":"` stripped, the sub part keeps what follows its first `":"` split on
`","`, each piece stripped, at most two pieces joined by `", "`.  Any missing
separator raises in Python and is caught by the `except` of line 77, giving
`("", "")`. -/
def parseLine (line : String) : String × String :=
  match splitOnceChar '.' line.data with
  | none => ("", "")
  | some (_, rest) =>
    match splitOnceChar '|' rest with
    | none => ("", "")
    | some (mainPart, subPart) =>
      match splitOnceChar ':' mainPart with
      | none => ("", "")
      | some (_, mainVal) =>
        match splitOnceChar ':' subPart with
        | none => ("", "")
        | some (_, subVal) =>
          let main : String := String.mk (pyStripChars mainVal)
          let subs : List String :=
            (((splitAllChar ',' subVal).map pyStripChars).take 2).map String.mk
          (main, String.intercalate ", " subs)

/-- Line 67 of app.py: the non-blank lines of the response text. -/
def nonBlankLines (text : String) : List String :=
  (splitlines text).filter (fun l => pyStrip l ≠ "")

/-- Lines 67-84 of app.py: parse a response text into exactly `n` records.
The first `n` non-blank lines are parsed one by one (`lines[: len(comments)]`),
and the `while len(results) < len(comments)` loop pads with empty records. -/
def parseResponse (text : String) (n : Nat) : List (String × String) :=
  let results := ((nonBlankLines text).take n).map parseLine
  results ++ List.replicate (n - results.length) ("", "")

/-- Lines 43-84 of app.py, `analyze_batch`.  The remote call is the oracle
argument `resp`: `none` is the `except Exception` branch of lines 63-65
(every record empty), `some raw` a successful call with response text `raw`,
which line 62 strips before line 67 splits it into lines.  The prompt built
on lines 44-49 only influences the opaque remote response and so does not
appear here; it is modelled separately by `prompt` below. -/
def analyze_batch (comments : List String) (resp : Option String) :
    List (String × String) :=
  match resp with
  | none => comments.map (fun _ => ("", ""))
  | some raw => parseResponse (pyStrip raw) comments.length

/-- Line 45 of app.py: `str(c)[:200].replace("\n", " ")` — keep the first 200
characters and replace each newline by a space. -/
def snippet (c : String) : String :=
  String.mk ((c.data.take 200).map (fun ch => if ch = '\n' then ' ' else ch))

/-- Line 48 of app.py: the prompt line for item number `i`, the content of
the f-string `f"{i}. {s}"` (its terminating newline aside). -/
def promptLine (i : Nat) (s : String) : String :=
  toString i ++ ". " ++ s

/-- Lines 47-48 of app.py: `enumerate(snippets, 1)` — one prompt line per
snippet, numbered from `i` upward. -/
def promptLinesFrom (i : Nat) : List String → List String
  | [] => []
  | s :: rest => promptLine i s :: promptLinesFrom (i + 1) rest

/-- The prompt lines of a batch: one numbered line per comment, numbering
starting at 1, each comment reduced to its snippet. -/
def promptLines (comments : List String) : List String :=
  promptLinesFrom 1 (comments.map snippet)

/-- Line 46 of app.py: the fixed instruction heading the prompt. -/
def promptHeader : String :=
  "以下のコメントリストについて、番号付きで「メインタグ」と「サブタグ（最大2つ）」を出力してください。\n\n"

/-- Line 49 of app.py: the fixed format reminder ending the prompt. -/
def promptFooter : String :=
  "\n出力フォーマット:\n1. メインタグ: <タグ> | サブタグ: <タグ1>, <タグ2>\n…\n"

/-- Lines 46-49 of app.py: the full prompt of a batch. -/
def prompt (comments : List String) : String :=
  promptHeader ++ String.join ((promptLines comments).map (fun l => l ++ "\n")) ++ promptFooter

/-- Python `range(start, stop, step)` for a positive step, with explicit fuel
(for a positive step, `stop - start` iterations always suffice). -/
def rangeStepAux : Nat → Nat → Nat → Nat → List Nat
  | 0, _, _, _ => []
  | fuel + 1, start, stop, step =>
    if start < stop then start :: rangeStepAux fuel (start + step) stop step else []

/-- Python `range(start, stop, step)` for a positive step
(line 92 of app.py: `range(0, total, BATCH_SIZE)`). -/
def rangeStep (start stop step : Nat) : List Nat :=
  rangeStepAux (stop - start) start stop step

/-- Lines 92-95 of app.py: the submitted units of work, one per batch — the
pair of the batch's start position (the value `futures[fut]`) and the slice
`comments[start : start + bs]`. -/
def jobs (bs : Nat) (comments : List String) : List (Nat × List String) :=
  (rangeStep 0 comments.length bs).map
    (fun start => (start, (comments.drop start).take bs))

/-- Lines 100-101 of app.py: `for i, res in enumerate(batch_res):
out[start + i] = res` — write the records of one batch into the output
buffer from position `pos` on (an out-of-range index leaves the buffer
unchanged, which never happens for the positions a batch owns). -/
def writeAt : List (String × String) → Nat → List (String × String) → List (String × String)
  | out, _, [] => out
  | out, pos, r :: rs => writeAt (out.set pos r) (pos + 1) rs

/-- Lines 96-105 of app.py: the completion of the future of batch index `k` —
look its unit of work up and write its records at its start position.  The
`except` branch of lines 102-105 is dead in this model: `analyze_batch`
already converts every remote failure into empty records and never raises. -/
def dispatchStep (oracle : Nat → Option String) (js : List (Nat × List String))
    (out : List (String × String)) (k : Nat) : List (String × String) :=
  match js[k]? with
  | some job => writeAt out job.1 (analyze_batch job.2 (oracle job.1))
  | none => out

/-- Lines 87-106 of app.py, `analyze_all`, generalised over the batch size:
allocate `out = [("", "")] * total`, then process the batches in the
completion order `order` (a permutation of the batch indices in a real run),
each batch's remote response being `oracle start`. -/
def analyzeAllWith (bs : Nat) (comments : List String) (oracle : Nat → Option String)
    (order : List Nat) : List (String × String) :=
  order.foldl (dispatchStep oracle (jobs bs comments))
    (List.replicate comments.length ("", ""))

/-- Lines 87-106 of app.py, `analyze_all`, at the constant `BATCH_SIZE` the
source uses. -/
def analyze_all (comments : List String) (oracle : Nat → Option String)
    (order : List Nat) : List (String × String) :=
  analyzeAllWith BATCH_SIZE comments oracle order

/-- The sequential reference the spec describes: cut the input into
contiguous batches in order, apply `analyze_batch` to each batch (with the
same per-batch responses as the concurrent run), and concatenate the
per-batch record lists. -/
def sequentialReference (bs : Nat) (comments : List String)
    (oracle : Nat → Option String) : List (String × String) :=
  ((jobs bs comments).map (fun job => analyze_batch job.2 (oracle job.1))).flatten

/-- Batch construction for an arbitrary integer batch size, as Python
`range(0, total, bs)` behaves: a zero step raises `ValueError` when the
range object is created (before any batch is submitted), a negative step
yields no start positions at all (the range from 0 counting downward is
empty), and a positive step yields the usual starts. -/
def jobsE (bs : Int) (comments : List String) :
    Except String (List (Nat × List String)) :=
  if bs = 0 then Except.error "range() arg 3 must not be zero"
  else if bs < 0 then Except.ok []
  else Except.ok (jobs bs.toNat comments)

/-- `analyze_all` for an arbitrary integer batch size: the buffer of empty
records is allocated, then the batches produced by `jobsE` are processed;
a zero step's `ValueError` propagates. -/
def analyzeAllE (bs : Int) (comments : List String) (oracle : Nat → Option String)
    (order : List Nat) : Except String (List (String × String)) :=
  match jobsE bs comments with
  | Except.error e => Except.error e
  | Except.ok js =>
    Except.ok (order.foldl (dispatchStep oracle js)
      (List.replicate comments.length ("", "")))

/-- Modelled from the spec: the tagged result of dispatching one batch
(spec section 3, BatchOutcome).  The repository's src/app.py has no such
type — failures are represented by lists of empty records — and has no cache
at all; this type and the cache below exist only to state the cache claim. -/
inductive BatchOutcome where
  | success (records : List (String × String)) : BatchOutcome
  | failure (reason : String) : BatchOutcome
deriving DecidableEq

/-- Modelled from the spec: the cache of section 4.6 of the spec, absent from
src/app.py — an association of batch-content keys with an outcome and its
insertion time. -/
def Cache : Type := List (List String × BatchOutcome × Nat)

/-- Modelled from the spec: insertion happens only after a Success outcome;
Failure outcomes are never cached (spec section 4.6). -/
def cacheInsert (c : Cache) (key : List String) (o : BatchOutcome) (now : Nat) : Cache :=
  match o with
  | BatchOutcome.success _ => (key, o, now) :: c
  | BatchOutcome.failure _ => c

/-- Modelled from the spec: lookup by batch content with a time-based expiry
(spec section 4.6) — a stored entry answers while strictly less than `ttl`
seconds old and misses afterwards. -/
def cacheLookup (c : Cache) (key : List String) (now ttl : Nat) : Option BatchOutcome :=
  match c.find? (fun e => e.1 == key) with
  | some e => if now < e.2.2 + ttl then some e.2.1 else none
  | none => none

/-- The parser always returns exactly the requested number of records. -/
theorem parseResponse_length (text : String) (n : Nat) :
    (parseResponse text n).length = n := by
  unfold parseResponse
  have h : (((nonBlankLines text).take n).map parseLine).length ≤ n := by
    simp [List.length_take]
  simp only [List.length_append, List.length_replicate]
  omega

/-- A batch's record list always has exactly as many records as the batch
has comments, whether the remote call failed or returned anything at all. -/
theorem analyze_batch_length (comments : List String) (resp : Option String) :
    (analyze_batch comments resp).length = comments.length := by
  cases resp with
  | none => simp [analyze_batch]
  | some raw => simp [analyze_batch, parseResponse_length]

/-- Writing a batch of records never changes the buffer's length. -/
theorem writeAt_length (r : List (String × String)) :
    ∀ (out : List (String × String)) (pos : Nat),
      (writeAt out pos r).length = out.length := by
  induction r with
  | nil => intro out pos; rfl
  | cons x rs ih => intro out pos; rw [writeAt, ih, List.length_set]

/-- Pointwise description of a buffer write: positions inside the written
range (and inside the buffer) take the new records, all others are kept. -/
theorem writeAt_getElem? (r : List (String × String)) :
    ∀ (out : List (String × String)) (pos p : Nat),
      (writeAt out pos r)[p]? =
        if pos ≤ p ∧ p < pos + r.length ∧ p < out.length then r[p - pos]?
        else out[p]? := by
  induction r with
  | nil =>
    intro out pos p
    rw [writeAt, if_neg (by simp only [List.length_nil]; omega)]
  | cons x rs ih =>
    intro out pos p
    rw [writeAt, ih, List.length_set, List.getElem?_set]
    simp only [List.length_cons]
    by_cases hb : p < out.length
    · by_cases heq : pos = p
      · subst heq
        rw [if_neg (by omega), if_pos rfl, if_pos hb,
          if_pos ⟨by omega, by omega, hb⟩]
        have h0 : pos - pos = 0 := by omega
        rw [h0, List.getElem?_cons_zero]
      · by_cases hge : pos + 1 ≤ p
        · by_cases hlt : p < pos + 1 + rs.length
          · rw [if_pos ⟨hge, hlt, hb⟩, if_pos ⟨by omega, by omega, hb⟩]
            have hp : p - pos = (p - (pos + 1)) + 1 := by omega
            rw [hp, List.getElem?_cons_succ]
          · rw [if_neg (by omega), if_neg heq, if_neg (by omega)]
        · rw [if_neg (by omega), if_neg heq, if_neg (by omega)]
    · by_cases heq : pos = p
      · subst heq
        rw [if_neg (by omega), if_pos rfl, if_neg hb, if_neg (by omega),
          List.getElem?_eq_none (by omega)]
      · rw [if_neg (by omega), if_neg heq, if_neg (by omega)]

/-- A write that fits inside the buffer splices the records in, keeping the
prefix before the start position and the suffix after the written range. -/
theorem writeAt_splice (r out : List (String × String)) (pos : Nat)
    (h : pos + r.length ≤ out.length) :
    writeAt out pos r = out.take pos ++ (r ++ out.drop (pos + r.length)) := by
  apply List.ext_getElem?
  intro p
  rw [writeAt_getElem?, List.getElem?_append, List.getElem?_append,
    List.length_take]
  have htake : min pos out.length = pos := by omega
  rw [htake]
  by_cases h1 : p < pos
  · rw [if_neg (by omega), if_pos h1, List.getElem?_take, if_pos h1]
  · by_cases h2 : p - pos < r.length
    · rw [if_pos ⟨by omega, by omega, by omega⟩, if_neg h1, if_pos h2]
    · rw [if_neg (by omega), if_neg h1, if_neg h2, List.getElem?_drop]
      have h3 : pos + r.length + (p - pos - r.length) = p := by omega
      rw [h3]

/-- Writes to disjoint ranges of the buffer commute. -/
theorem writeAt_comm (r1 r2 out : List (String × String)) (s1 s2 : Nat)
    (h : s1 + r1.length ≤ s2 ∨ s2 + r2.length ≤ s1) :
    writeAt (writeAt out s1 r1) s2 r2 = writeAt (writeAt out s2 r2) s1 r1 := by
  apply List.ext_getElem?
  intro p
  rw [writeAt_getElem?, writeAt_getElem?, writeAt_getElem?, writeAt_getElem?,
    writeAt_length, writeAt_length]
  by_cases h2 : s2 ≤ p ∧ p < s2 + r2.length ∧ p < out.length
  · rw [if_pos h2, if_neg (by omega), if_pos h2]
  · rw [if_neg h2]
    by_cases h1 : s1 ≤ p ∧ p < s1 + r1.length ∧ p < out.length
    · rw [if_pos h1, if_pos h1]
    · rw [if_neg h1, if_neg h1, if_neg h2]

/-- The fuel argument of `rangeStepAux` is irrelevant once it is at least
`stop - start`, for a positive step. -/
theorem rangeStepAux_congr (step : Nat) (hstep : 1 ≤ step) :
    ∀ (fuel fuel' start stop : Nat), stop - start ≤ fuel → stop - start ≤ fuel' →
      rangeStepAux fuel start stop step = rangeStepAux fuel' start stop step := by
  intro fuel
  induction fuel with
  | zero =>
    intro fuel' start stop h h'
    cases fuel' with
    | zero => rfl
    | succ f2 =>
      rw [rangeStepAux, rangeStepAux, if_neg (by omega)]
  | succ f ih =>
    intro fuel' start stop h h'
    cases fuel' with
    | zero =>
      rw [rangeStepAux, rangeStepAux, if_neg (by omega)]
    | succ f2 =>
      rw [rangeStepAux, rangeStepAux]
      by_cases hlt : start < stop
      · rw [if_pos hlt, if_pos hlt, ih f2 (start + step) stop (by omega) (by omega)]
      · rw [if_neg hlt, if_neg hlt]

/-- Unfolding rule for `rangeStep` with a positive step. -/
theorem rangeStep_eq (start stop step : Nat) (hstep : 1 ≤ step) :
    rangeStep start stop step =
      if start < stop then start :: rangeStep (start + step) stop step else [] := by
  unfold rangeStep
  by_cases hlt : start < stop
  · rw [if_pos hlt]
    have h1 : stop - start = (stop - start - 1) + 1 := by omega
    rw [h1, rangeStepAux, if_pos hlt]
    congr 1
    exact rangeStepAux_congr step hstep _ _ _ _ (by omega) (by omega)
  · rw [if_neg hlt]
    have h1 : stop - start = 0 := by omega
    rw [h1]
    rfl

/-- Shifting both ends of a positive-step range shifts every element. -/
theorem rangeStep_shift (step c : Nat) (hstep : 1 ≤ step) :
    ∀ (n t s : Nat), t - s ≤ n →
      rangeStep (s + c) (t + c) step = (rangeStep s t step).map (fun x => x + c) := by
  intro n
  induction n with
  | zero =>
    intro t s h
    rw [rangeStep_eq (s + c) (t + c) step hstep, rangeStep_eq s t step hstep,
      if_neg (show ¬s + c < t + c by omega), if_neg (show ¬s < t by omega)]
    rfl
  | succ m ih =>
    intro t s h
    rw [rangeStep_eq (s + c) (t + c) step hstep, rangeStep_eq s t step hstep]
    by_cases hlt : s < t
    · rw [if_pos (show s + c < t + c by omega), if_pos hlt]
      simp only [List.map_cons]
      have hc : s + c + step = s + step + c := by omega
      rw [hc, ih t (s + step) (by omega)]
    · rw [if_neg (show ¬s + c < t + c by omega), if_neg hlt]
      rfl

/-- The k-th element of a positive-step range from `s`. -/
theorem rangeStep_getElem? (step : Nat) (hstep : 1 ≤ step) :
    ∀ (k t s : Nat),
      (rangeStep s t step)[k]? =
        if s + k * step < t then some (s + k * step) else none := by
  intro k
  induction k with
  | zero =>
    intro t s
    rw [rangeStep_eq _ _ _ hstep]
    simp only [Nat.zero_mul, Nat.add_zero]
    by_cases hlt : s < t
    · rw [if_pos hlt, List.getElem?_cons_zero, if_pos hlt]
    · rw [if_neg hlt, List.getElem?_nil, if_neg hlt]
  | succ m ih =>
    intro t s
    rw [rangeStep_eq _ _ _ hstep]
    by_cases hlt : s < t
    · rw [if_pos hlt, List.getElem?_cons_succ, ih t (s + step)]
      have he : s + step + m * step = s + (m + 1) * step := by
        rw [Nat.succ_mul]; omega
      rw [he]
    · rw [if_neg hlt, List.getElem?_nil, if_neg (by
        have hz : 0 ≤ (m + 1) * step := Nat.zero_le _
        omega)]

/-- There are no batches for an empty input. -/
theorem jobs_nil (bs : Nat) : jobs bs [] = [] := rfl

/-- The k-th unit of work: start position `k * bs` and the corresponding
slice, provided the start is within the input. -/
theorem jobs_getElem? (bs : Nat) (hbs : 1 ≤ bs) (l : List String) (k : Nat) :
    (jobs bs l)[k]? =
      if k * bs < l.length then some (k * bs, (l.drop (k * bs)).take bs)
      else none := by
  unfold jobs
  rw [List.getElem?_map, rangeStep_getElem? bs hbs k l.length 0]
  simp only [Nat.zero_add]
  by_cases h : k * bs < l.length
  · rw [if_pos h, if_pos h]
    rfl
  · rw [if_neg h, if_neg h]
    rfl

/-- Everything the dispatcher needs to know about a unit of work. -/
theorem jobs_facts (bs : Nat) (hbs : 1 ≤ bs) (l : List String) (k s : Nat)
    (b : List String) (hk : (jobs bs l)[k]? = some (s, b)) :
    s = k * bs ∧ s < l.length ∧ b = (l.drop s).take bs ∧
      b.length = min bs (l.length - s) ∧ 0 < b.length ∧ s + b.length ≤ l.length := by
  rw [jobs_getElem? bs hbs] at hk
  by_cases h : k * bs < l.length
  · rw [if_pos h] at hk
    have hs : s = k * bs ∧ b = (l.drop (k * bs)).take bs := by
      constructor
      · exact congrArg Prod.fst (Option.some.inj hk) |>.symm
      · exact congrArg Prod.snd (Option.some.inj hk) |>.symm
    obtain ⟨hs1, hs2⟩ := hs
    subst hs1
    refine ⟨rfl, h, hs2, ?_, ?_, ?_⟩
    · rw [hs2, List.length_take, List.length_drop]
    · rw [hs2, List.length_take, List.length_drop]; omega
    · rw [hs2, List.length_take, List.length_drop]; omega
  · rw [if_neg h] at hk
    exact absurd hk (by simp)

/-- Structural recursion for batch construction: a non-empty input yields the
first slice as the first batch and the batches of the rest shifted by `bs`. -/
theorem jobs_cons (bs : Nat) (hbs : 1 ≤ bs) (l : List String) (hl : l ≠ []) :
    jobs bs l = (0, l.take bs) :: (jobs bs (l.drop bs)).map (fun j => (j.1 + bs, j.2)) := by
  unfold jobs
  rw [rangeStep_eq 0 l.length bs hbs, if_pos (List.length_pos.mpr hl)]
  simp only [List.map_cons, List.drop_zero, Nat.zero_add]
  congr 1
  by_cases hlen : bs ≤ l.length
  · have h1 : rangeStep bs l.length bs = rangeStep (0 + bs) ((l.length - bs) + bs) bs := by
      congr 1
      · omega
      · omega
    rw [h1, rangeStep_shift bs bs hbs (l.length - bs) (l.length - bs) 0 (by omega),
      List.map_map, List.map_map]
    have h2 : (l.drop bs).length = l.length - bs := List.length_drop bs l
    rw [← h2]
    apply List.map_congr_left
    intro s _
    simp only [Function.comp_apply]
    have h3 : (l.drop bs).drop s = l.drop (s + bs) := by
      rw [List.drop_drop]
      congr 1
      omega
    rw [h3]
  · have hd : l.drop bs = [] := List.drop_eq_nil_of_le (by omega)
    rw [hd]
    have hr : rangeStep bs l.length bs = [] := by
      rw [rangeStep_eq _ _ _ hbs, if_neg (by omega)]
    rw [hr]
    simp only [List.length_nil, List.map_nil]
    rfl

/-- A completion whose batch index is not a real unit of work changes
nothing. -/
theorem dispatchStep_none (oracle : Nat → Option String)
    (js : List (Nat × List String)) (out : List (String × String)) (k : Nat)
    (h : js[k]? = none) : dispatchStep oracle js out k = out := by
  unfold dispatchStep
  rw [h]

/-- A completion whose batch index is the unit of work `j` writes that
batch's records at its start position. -/
theorem dispatchStep_some (oracle : Nat → Option String)
    (js : List (Nat × List String)) (out : List (String × String)) (k : Nat)
    (j : Nat × List String) (h : js[k]? = some j) :
    dispatchStep oracle js out k =
      writeAt out j.1 (analyze_batch j.2 (oracle j.1)) := by
  unfold dispatchStep
  rw [h]

/-- Completing one batch never changes the buffer's length. -/
theorem dispatchStep_length (oracle : Nat → Option String)
    (js : List (Nat × List String)) (out : List (String × String)) (k : Nat) :
    (dispatchStep oracle js out k).length = out.length := by
  cases h : js[k]? with
  | none => rw [dispatchStep_none oracle js out k h]
  | some j => rw [dispatchStep_some oracle js out k j h, writeAt_length]

/-- Processing any sequence of completions never changes the buffer's
length. -/
theorem foldl_dispatch_length (oracle : Nat → Option String)
    (js : List (Nat × List String)) :
    ∀ (order : List Nat) (init : List (String × String)),
      (order.foldl (dispatchStep oracle js) init).length = init.length := by
  intro order
  induction order with
  | nil => intro init; rfl
  | cons k ks ih =>
    intro init
    rw [List.foldl_cons, ih, dispatchStep_length]

/-- Two folds agree when their step functions agree everywhere. -/
theorem foldl_fun_congr {α β : Type} (f g : β → α → β) (h : ∀ b x, f b x = g b x) :
    ∀ (l : List α) (b : β), l.foldl f b = l.foldl g b := by
  intro l
  induction l with
  | nil => intro b; rfl
  | cons x xs ih =>
    intro b
    rw [List.foldl_cons, List.foldl_cons, h, ih]

/-- Processing the completions in submission order is a fold of the buffer
writes over the units of work themselves. -/
theorem foldl_dispatch_range (oracle : Nat → Option String) :
    ∀ (js : List (Nat × List String)) (init : List (String × String)),
      (List.range js.length).foldl (dispatchStep oracle js) init =
        js.foldl (fun out j => writeAt out j.1 (analyze_batch j.2 (oracle j.1))) init := by
  intro js
  induction js with
  | nil => intro init; rfl
  | cons j js ih =>
    intro init
    rw [List.length_cons, List.range_succ_eq_map, List.foldl_cons, List.foldl_map]
    rw [dispatchStep_some oracle (j :: js) init 0 j List.getElem?_cons_zero]
    rw [foldl_fun_congr _ (dispatchStep oracle js)
      (fun b k => by
        unfold dispatchStep
        rw [List.getElem?_cons_succ])]
    exact ih _

/-- The written ranges of two distinct units of work are disjoint, so the
corresponding buffer writes commute; hence processing the completions in any
order that is a permutation of the batch indices gives the same buffer as
processing them in submission order. -/
theorem foldl_dispatch_perm (bs : Nat) (hbs : 1 ≤ bs) (comments : List String)
    (oracle : Nat → Option String) (order : List Nat)
    (hord : order.Perm (List.range (jobs bs comments).length))
    (init : List (String × String)) :
    order.foldl (dispatchStep oracle (jobs bs comments)) init =
      (List.range (jobs bs comments).length).foldl
        (dispatchStep oracle (jobs bs comments)) init := by
  apply hord.foldl_eq'
  intro x _hx y _hy z
  by_cases hxy : x = y
  · subst hxy; rfl
  · cases hjx : (jobs bs comments)[x]? with
    | none =>
      rw [dispatchStep_none oracle _ _ x hjx, dispatchStep_none oracle _ _ x hjx]
    | some jx =>
      cases hjy : (jobs bs comments)[y]? with
      | none =>
        rw [dispatchStep_none oracle _ _ y hjy, dispatchStep_none oracle _ _ y hjy]
      | some jy =>
        rw [dispatchStep_some oracle _ _ x jx hjx, dispatchStep_some oracle _ _ y jy hjy,
          dispatchStep_some oracle _ _ y jy hjy, dispatchStep_some oracle _ _ x jx hjx]
        apply writeAt_comm
        obtain ⟨hx1, hx2, _, hx4, _, _⟩ :=
          jobs_facts bs hbs comments x jx.1 jx.2 (by rw [hjx])
        obtain ⟨hy1, hy2, _, hy4, _, _⟩ :=
          jobs_facts bs hbs comments y jy.1 jy.2 (by rw [hjy])
        rw [analyze_batch_length, analyze_batch_length]
        rcases Nat.lt_or_ge x y with hlt | hge
        · left
          have h5 : (x + 1) * bs ≤ y * bs := Nat.mul_le_mul_right bs hlt
          rw [Nat.succ_mul] at h5
          omega
        · right
          have hlt : y < x := by omega
          have h5 : (y + 1) * bs ≤ x * bs := Nat.mul_le_mul_right bs hlt
          rw [Nat.succ_mul] at h5
          omega

/-- Writing the batches of `l` into the buffer in submission order, all
starts shifted by `s0`, overwrites exactly the suffix of the buffer from
position `s0` on with the concatenated per-batch records. -/
theorem foldl_jobs_splice (bs : Nat) (hbs : 1 ≤ bs) (oracle : Nat → Option String) :
    ∀ (n : Nat) (l : List String) (init : List (String × String)) (s0 : Nat),
      l.length ≤ n → init.length = s0 + l.length →
      ((jobs bs l).map (fun j => (j.1 + s0, j.2))).foldl
          (fun out j => writeAt out j.1 (analyze_batch j.2 (oracle j.1))) init =
        init.take s0 ++
          ((jobs bs l).map (fun j => analyze_batch j.2 (oracle (j.1 + s0)))).flatten := by
  intro n
  induction n with
  | zero =>
    intro l init s0 hn hlen
    have hl : l = [] := List.length_eq_zero.mp (by omega)
    subst hl
    rw [jobs_nil]
    simp only [List.map_nil, List.foldl_nil, List.flatten_nil, List.append_nil]
    rw [List.take_of_length_le (by simp at hlen; omega)]
  | succ m ih =>
    intro l init s0 hn hlen
    by_cases hl : l = []
    · subst hl
      rw [jobs_nil]
      simp only [List.map_nil, List.foldl_nil, List.flatten_nil, List.append_nil]
      rw [List.take_of_length_le (by simp at hlen; omega)]
    · rw [jobs_cons bs hbs l hl]
      simp only [List.map_cons, List.map_map, List.foldl_cons, List.flatten_cons,
        Nat.zero_add]
      have hcomp :
          ((fun (j : Nat × List String) => (j.1 + s0, j.2)) ∘
              fun (j : Nat × List String) => (j.1 + bs, j.2)) =
            fun (j : Nat × List String) => (j.1 + (s0 + bs), j.2) := by
        funext j
        simp only [Function.comp_apply]
        congr 1
        omega
      have hcomp2 :
          ((fun (j : Nat × List String) => analyze_batch j.2 (oracle (j.1 + s0))) ∘
              fun (j : Nat × List String) => (j.1 + bs, j.2)) =
            fun (j : Nat × List String) => analyze_batch j.2 (oracle (j.1 + (s0 + bs))) := by
        funext j
        simp only [Function.comp_apply]
        congr 2
        omega
      rw [hcomp, hcomp2]
      by_cases hbl : bs < l.length
      · have hr0len : (analyze_batch (l.take bs) (oracle s0)).length = bs := by
          rw [analyze_batch_length, List.length_take]; omega
        rw [ih (l.drop bs) (writeAt init s0 (analyze_batch (l.take bs) (oracle s0)))
          (s0 + bs) (by rw [List.length_drop]; omega)
          (by rw [writeAt_length, List.length_drop]; omega)]
        rw [writeAt_splice _ _ _ (by omega)]
        have htk :
            ((init.take s0 ++ (analyze_batch (l.take bs) (oracle s0) ++
                init.drop (s0 + (analyze_batch (l.take bs) (oracle s0)).length))).take
              (s0 + bs)) =
              init.take s0 ++ analyze_batch (l.take bs) (oracle s0) := by
          rw [show s0 + bs = (init.take s0).length + bs by rw [List.length_take]; omega,
            List.take_append, List.take_left' hr0len]
        rw [htk, List.append_assoc]
      · have hd : l.drop bs = [] := List.drop_eq_nil_of_le (by omega)
        rw [hd, jobs_nil]
        simp only [List.map_nil, List.foldl_nil, List.flatten_nil, List.append_nil]
        have hrlen : (analyze_batch (l.take bs) (oracle s0)).length = l.length := by
          rw [analyze_batch_length, List.length_take]; omega
        rw [writeAt_splice _ _ _ (by omega)]
        have hdr : init.drop (s0 + (analyze_batch (l.take bs) (oracle s0)).length) = [] :=
          List.drop_eq_nil_of_le (by omega)
        rw [hdr, List.append_nil]

/-- The concurrent dispatcher, run with any completion order that is a
permutation of the batch indices, computes exactly the sequential
reference. -/
theorem analyzeAllWith_eq_sequential (bs : Nat) (comments : List String)
    (oracle : Nat → Option String) (order : List Nat) (hbs : 1 ≤ bs)
    (hord : order.Perm (List.range (jobs bs comments).length)) :
    analyzeAllWith bs comments oracle order = sequentialReference bs comments oracle := by
  unfold analyzeAllWith sequentialReference
  rw [foldl_dispatch_perm bs hbs comments oracle order hord,
    foldl_dispatch_range oracle]
  have hid : (jobs bs comments).map
      (fun (j : Nat × List String) => (j.1 + 0, j.2)) = jobs bs comments := by
    have h1 : (jobs bs comments).map (fun (j : Nat × List String) => (j.1 + 0, j.2)) =
        (jobs bs comments).map id :=
      List.map_congr_left (fun j _ => rfl)
    rw [h1, List.map_id]
  have h := foldl_jobs_splice bs hbs oracle comments.length comments
    (List.replicate comments.length ("", "")) 0 (Nat.le_refl _)
    (by rw [List.length_replicate]; omega)
  rw [hid] at h
  rw [h]
  simp only [List.take_zero, List.nil_append]
  rfl

/-- The dispatcher always returns a buffer of the input's length. -/
theorem analyzeAllWith_length (bs : Nat) (comments : List String)
    (oracle : Nat → Option String) (order : List Nat) :
    (analyzeAllWith bs comments oracle order).length = comments.length := by
  unfold analyzeAllWith
  rw [foldl_dispatch_length, List.length_replicate]

/-- The sequential reference also returns one record per input comment. -/
theorem sequentialReference_length (bs : Nat) (hbs : 1 ≤ bs)
    (comments : List String) (oracle : Nat → Option String) :
    (sequentialReference bs comments oracle).length = comments.length := by
  rw [← analyzeAllWith_eq_sequential bs comments oracle
    (List.range (jobs bs comments).length) hbs (List.Perm.refl _),
    analyzeAllWith_length]

/-- A failed remote call produces one empty record per comment of the
batch. -/
theorem analyze_batch_none (comments : List String) :
    analyze_batch comments none = List.replicate comments.length ("", "") := by
  unfold analyze_batch
  rw [List.map_const']

/-- Unfolding the sequential reference on a non-empty input: the first
batch's records, then the reference on the rest with the oracle keys
shifted by the batch size. -/
theorem sequentialReference_cons (bs : Nat) (hbs : 1 ≤ bs) (l : List String)
    (hl : l ≠ []) (o : Nat → Option String) :
    sequentialReference bs l o =
      analyze_batch (l.take bs) (o 0) ++
        sequentialReference bs (l.drop bs) (fun t => o (t + bs)) := by
  unfold sequentialReference
  rw [jobs_cons bs hbs l hl]
  simp only [List.map_cons, List.map_map, List.flatten_cons]
  congr 1

/-- Failing exactly one batch's remote call replaces that batch's range of
the sequential reference by empty records and leaves every other position
unchanged. -/
theorem sequential_frame (bs : Nat) (hbs : 1 ≤ bs) :
    ∀ (n : Nat) (l : List String) (k s : Nat) (b : List String)
      (o o2 : Nat → Option String),
      l.length ≤ n →
      (jobs bs l)[k]? = some (s, b) →
      (∀ t, t ≠ s → o2 t = o t) → o2 s = none →
      sequentialReference bs l o2 =
        (sequentialReference bs l o).take s ++
          (List.replicate b.length ("", "") ++
            (sequentialReference bs l o).drop (s + b.length)) := by
  intro n
  induction n with
  | zero =>
    intro l k s b o o2 hn hk _hagree _hfail
    have hl : l = [] := List.length_eq_zero.mp (by omega)
    subst hl
    rw [jobs_nil] at hk
    exact absurd hk (by simp)
  | succ m ih =>
    intro l k s b o o2 hn hk hagree hfail
    by_cases hl : l = []
    · subst hl
      rw [jobs_nil] at hk
      exact absurd hk (by simp)
    · rw [jobs_cons bs hbs l hl] at hk
      cases k with
      | zero =>
        rw [List.getElem?_cons_zero] at hk
        have hp := Option.some.inj hk
        have hs : (0 : Nat) = s := congrArg Prod.fst hp
        have hb : l.take bs = b := congrArg Prod.snd hp
        subst hb
        rw [← hs] at hfail ⊢
        rw [sequentialReference_cons bs hbs l hl o2,
          sequentialReference_cons bs hbs l hl o, hfail, analyze_batch_none]
        have hsh : (fun t => o2 (t + bs)) = fun t => o (t + bs) :=
          funext (fun t => hagree (t + bs) (by rw [← hs]; omega))
        rw [hsh, List.take_zero, List.nil_append]
        simp only [Nat.zero_add]
        rw [List.drop_left' (by rw [analyze_batch_length])]
      | succ k2 =>
        rw [List.getElem?_cons_succ, List.getElem?_map] at hk
        cases hj2 : (jobs bs (l.drop bs))[k2]? with
        | none => rw [hj2] at hk; exact absurd hk (by simp)
        | some j2 =>
          rw [hj2] at hk
          have hp := Option.some.inj hk
          have hs : j2.1 + bs = s := congrArg Prod.fst hp
          have hb : j2.2 = b := congrArg Prod.snd hp
          have hdne : l.drop bs ≠ [] := by
            intro hd
            rw [hd, jobs_nil] at hj2
            exact absurd hj2 (by simp)
          have hbl : bs < l.length := by
            by_contra hle
            exact hdne (List.drop_eq_nil_of_le (by omega))
          rw [sequentialReference_cons bs hbs l hl o2,
            sequentialReference_cons bs hbs l hl o]
          rw [hagree 0 (by omega)]
          have hT := ih (l.drop bs) k2 j2.1 b (fun t => o (t + bs)) (fun t => o2 (t + bs))
            (by rw [List.length_drop]; omega)
            (by rw [hj2, ← hb])
            (fun t ht => hagree (t + bs) (by omega))
            (by show o2 (j2.1 + bs) = none; rw [hs]; exact hfail)
          rw [hT]
          have hp0len : (analyze_batch (l.take bs) (o 0)).length = bs := by
            rw [analyze_batch_length, List.length_take]; omega
          rw [show s = (analyze_batch (l.take bs) (o 0)).length + j2.1 by
              rw [hp0len]; omega,
            List.take_append]
          rw [show (analyze_batch (l.take bs) (o 0)).length + j2.1 + b.length
              = (analyze_batch (l.take bs) (o 0)).length + (j2.1 + b.length) by omega,
            List.drop_append]
          rw [List.append_assoc]

/-- A one-shot split misses exactly when the separator does not occur. -/
theorem splitOnceChar_eq_none (sep : Char) :
    ∀ (cs : List Char), (∀ c ∈ cs, c ≠ sep) → splitOnceChar sep cs = none := by
  intro cs
  induction cs with
  | nil => intro _; rfl
  | cons c rest ih =>
    intro h
    simp only [splitOnceChar]
    rw [if_neg (h c (List.mem_cons_self c rest)),
      ih (fun x hx => h x (List.mem_cons_of_mem c hx))]

/-- A one-shot split cuts at the first occurrence of the separator. -/
theorem splitOnceChar_append (sep : Char) :
    ∀ (pre rest : List Char), (∀ c ∈ pre, c ≠ sep) →
      splitOnceChar sep (pre ++ sep :: rest) = some (pre, rest) := by
  intro pre
  induction pre with
  | nil =>
    intro rest _
    simp [splitOnceChar]
  | cons c pre ih =>
    intro rest h
    simp only [List.cons_append, splitOnceChar, List.append_eq]
    rw [if_neg (h c (List.mem_cons_self c pre)),
      ih rest (fun x hx => h x (List.mem_cons_of_mem c hx))]

/-- A line without any period character parses to the fully empty record. -/
theorem parseLine_no_dot (line : String) (h : ∀ c ∈ line.data, c ≠ '.') :
    parseLine line = ("", "") := by
  unfold parseLine
  rw [splitOnceChar_eq_none '.' line.data h]

/-- The text before the first period of a line is ignored: two lines that
agree after their first period parse identically, whatever their numeral
part is. -/
theorem parseLine_numeral_irrelevant (pre1 pre2 rest : String)
    (h1 : ∀ c ∈ pre1.data, c ≠ '.') (h2 : ∀ c ∈ pre2.data, c ≠ '.') :
    parseLine (pre1 ++ "." ++ rest) = parseLine (pre2 ++ "." ++ rest) := by
  have hd1 : (pre1 ++ "." ++ rest).data = pre1.data ++ ('.' :: rest.data) := by
    rw [String.data_append, String.data_append, List.append_assoc]
    rfl
  have hd2 : (pre2 ++ "." ++ rest).data = pre2.data ++ ('.' :: rest.data) := by
    rw [String.data_append, String.data_append, List.append_assoc]
    rfl
  unfold parseLine
  rw [hd1, hd2, splitOnceChar_append '.' pre1.data rest.data h1,
    splitOnceChar_append '.' pre2.data rest.data h2]

/-- The sub field of any parsed record is at most two strings flattened
into one by a comma-space join. -/
theorem parseLine_sub (line : String) :
    ∃ subs : List String, subs.length ≤ 2 ∧
      (parseLine line).2 = String.intercalate ", " subs := by
  unfold parseLine
  split
  · exact ⟨[], by simp, rfl⟩
  · split
    · exact ⟨[], by simp, rfl⟩
    · split
      · exact ⟨[], by simp, rfl⟩
      · split
        · exact ⟨[], by simp, rfl⟩
        · refine ⟨_, ?_, rfl⟩
          rw [List.length_map, List.length_take]
          omega

/-- Every record of a successfully fetched batch is either the parse of
some response line or a padding record. -/
theorem analyze_batch_record_sub (comments : List String) (text : String)
    (i : Nat) (r : String × String)
    (h : (analyze_batch comments (some text))[i]? = some r) :
    ∃ subs : List String, subs.length ≤ 2 ∧
      r.2 = String.intercalate ", " subs := by
  have hmem : r ∈ analyze_batch comments (some text) := List.getElem?_mem h
  simp only [analyze_batch, parseResponse] at hmem
  rcases List.mem_append.mp hmem with hmap | hrep
  · obtain ⟨line, _, hline⟩ := List.mem_map.mp hmap
    rw [← hline]
    exact parseLine_sub line
  · rw [List.eq_of_mem_replicate hrep]
    exact ⟨[], by simp, rfl⟩

/-- The i-th record (i below the requested count) is the parse of the i-th
non-blank line when it exists, and a padding record otherwise. -/
theorem parseResponse_getElem? (text : String) (n i : Nat) (hi : i < n) :
    (parseResponse text n)[i]? =
      some (((nonBlankLines text)[i]?).elim ("", "") parseLine) := by
  simp only [parseResponse]
  cases hl : (nonBlankLines text)[i]? with
  | some line =>
    have hlen : i < (nonBlankLines text).length := by
      by_contra hge
      rw [List.getElem?_eq_none (by omega)] at hl
      exact absurd hl (by simp)
    rw [List.getElem?_append_left (by rw [List.length_map, List.length_take]; omega),
      List.getElem?_map, List.getElem?_take, if_pos hi, hl]
    rfl
  | none =>
    have hlen : (nonBlankLines text).length ≤ i := List.getElem?_eq_none_iff.mp hl
    rw [List.getElem?_append_right (by rw [List.length_map, List.length_take]; omega),
      List.getElem?_replicate,
      if_pos (by rw [List.length_map, List.length_take]; omega)]
    rfl

/-- The parser only looks at the first `n` non-blank lines: texts agreeing
there parse identically. -/
theorem parseResponse_truncates (t1 t2 : String) (n : Nat)
    (h : (nonBlankLines t1).take n = (nonBlankLines t2).take n) :
    parseResponse t1 n = parseResponse t2 n := by
  simp only [parseResponse]
  rw [h]

/-- No decimal digit character is a newline. -/
theorem digitChar_ne_newline (m : Nat) : Nat.digitChar m ≠ '\n' := by
  by_cases h : m < 16
  · interval_cases m <;> decide
  · unfold Nat.digitChar
    repeat rw [if_neg (by omega)]
    decide

/-- The digit expansion of a natural number contains no newline. -/
theorem toDigitsCore_ne_newline :
    ∀ (fuel n : Nat) (ds : List Char), (∀ c ∈ ds, c ≠ '\n') →
      ∀ c ∈ Nat.toDigitsCore 10 fuel n ds, c ≠ '\n' := by
  intro fuel
  induction fuel with
  | zero =>
    intro n ds h c hc
    exact h c hc
  | succ f ih =>
    intro n ds h c hc
    simp only [Nat.toDigitsCore] at hc
    by_cases hz : n / 10 = 0
    · rw [if_pos hz] at hc
      rcases List.mem_cons.mp hc with hc1 | hc2
      · rw [hc1]; exact digitChar_ne_newline (n % 10)
      · exact h c hc2
    · rw [if_neg hz] at hc
      refine ih (n / 10) (Nat.digitChar (n % 10) :: ds) ?_ c hc
      intro x hx
      rcases List.mem_cons.mp hx with hx1 | hx2
      · rw [hx1]; exact digitChar_ne_newline (n % 10)
      · exact h x hx2

/-- The decimal rendering of a natural number contains no newline. -/
theorem toString_nat_ne_newline (i : Nat) : ∀ c ∈ (toString i).data, c ≠ '\n' := by
  intro c hc
  exact toDigitsCore_ne_newline (i + 1) i [] (by simp) c hc

/-- A snippet is at most 200 characters long. -/
theorem snippet_length (c : String) : (snippet c).length ≤ 200 := by
  show ((c.data.take 200).map (fun ch => if ch = '\n' then ' ' else ch)).length ≤ 200
  rw [List.length_map, List.length_take]
  omega

/-- A snippet contains no newline. -/
theorem snippet_no_newline (c : String) : ∀ ch ∈ (snippet c).data, ch ≠ '\n' := by
  intro ch hch
  obtain ⟨x, _, hx⟩ := List.mem_map.mp hch
  rw [← hx]
  by_cases h : x = '\n'
  · rw [if_pos h]; decide
  · rw [if_neg h]; exact h

/-- The characters of a prompt line: the decimal item number, a period, a
space, then the snippet. -/
theorem promptLine_data (i : Nat) (s : String) :
    (promptLine i s).data = (toString i).data ++ ('.' :: ' ' :: s.data) := by
  unfold promptLine
  rw [String.data_append, String.data_append, List.append_assoc]
  rfl

/-- The length of a prompt line: the item number's width plus two plus the
snippet's length. -/
theorem promptLine_length (i : Nat) (s : String) :
    (promptLine i s).length = (toString i).length + 2 + s.length := by
  unfold promptLine
  rw [String.length_append, String.length_append,
    show (". " : String).length = 2 from rfl]

/-- Concatenating the batches in order reconstructs the input exactly. -/
theorem jobs_flatten (bs : Nat) (hbs : 1 ≤ bs) :
    ∀ (n : Nat) (l : List String), l.length ≤ n →
      ((jobs bs l).map Prod.snd).flatten = l := by
  intro n
  induction n with
  | zero =>
    intro l hn
    have hl : l = [] := List.length_eq_zero.mp (by omega)
    subst hl
    rfl
  | succ m ih =>
    intro l hn
    by_cases hl : l = []
    · subst hl; rfl
    · rw [jobs_cons bs hbs l hl]
      simp only [List.map_cons, List.map_map, List.flatten_cons]
      have hsnd : (Prod.snd ∘ fun (j : Nat × List String) => (j.1 + bs, j.2)) =
          (Prod.snd : Nat × List String → List String) := by
        funext j
        rfl
      rw [hsnd, ih (l.drop bs) (by rw [List.length_drop]; omega),
        List.take_append_drop]

/-- Every batch is at most `bs` comments long. -/
theorem jobs_batch_le (bs : Nat) (l : List String) :
    ∀ b ∈ (jobs bs l).map Prod.snd, b.length ≤ bs := by
  intro b hb
  obtain ⟨j, hjmem, hjb⟩ := List.mem_map.mp hb
  obtain ⟨st, _, hst⟩ := List.mem_map.mp hjmem
  rw [← hjb, ← hst]
  show ((l.drop st).take bs).length ≤ bs
  rw [List.length_take]
  omega

/-- Every batch except possibly the last is exactly `bs` comments long. -/
theorem jobs_batch_full (bs : Nat) (hbs : 1 ≤ bs) (l : List String) (i : Nat)
    (b : List String) (hib : ((jobs bs l).map Prod.snd)[i]? = some b)
    (hilt : i + 1 < (jobs bs l).length) : b.length = bs := by
  rw [List.getElem?_map] at hib
  cases hj : (jobs bs l)[i]? with
  | none => rw [hj] at hib; exact absurd hib (by simp)
  | some j =>
    rw [hj] at hib
    have hbj : b = j.2 := (Option.some.inj hib).symm
    cases hj2 : (jobs bs l)[i + 1]? with
    | none =>
      have := List.getElem?_eq_none_iff.mp hj2
      omega
    | some j2 =>
      obtain ⟨hf1a, hf1b, _, hf1d, _, _⟩ := jobs_facts bs hbs l i j.1 j.2 (by rw [hj])
      obtain ⟨hf2a, hf2b, _, _, _, _⟩ := jobs_facts bs hbs l (i + 1) j2.1 j2.2 (by rw [hj2])
      have hmul : (i + 1) * bs = i * bs + bs := Nat.succ_mul i bs
      rw [hbj]
      omega

/-- Claim C1: for every input list of N comments (N ≥ 0), analyze_all
returns exactly N classification records — whatever each batch's remote call
returned (including failure or garbage, via the oracle), whatever completion
order the futures finish in, and for any batch size of the generalised
dispatcher. -/
theorem claim_C1 (comments : List String) (oracle : Nat → Option String)
    (order : List Nat) (bs : Nat) :
    (analyze_all comments oracle order).length = comments.length ∧
    (analyzeAllWith bs comments oracle order).length = comments.length :=
  ⟨analyzeAllWith_length BATCH_SIZE comments oracle order,
   analyzeAllWith_length bs comments oracle order⟩

/-- Claim C2: the response parser is total — for any raw text and any
requested count n it returns exactly n records; the i-th record is the
parse of the i-th non-blank line (padding with the empty record when the
line is missing, discarding the lines past n, so one line's content never
affects another record); a line without the expected grammar (here: no
period at all) parses to the fully empty record rather than failing. -/
theorem claim_C2 (text : String) (n : Nat) :
    (parseResponse text n).length = n ∧
    (∀ i, i < n →
      (parseResponse text n)[i]? =
        some (((nonBlankLines text)[i]?).elim ("", "") parseLine)) ∧
    (∀ line : String, (∀ c ∈ line.data, c ≠ '.') → parseLine line = ("", "")) ∧
    (∀ t2 : String, (nonBlankLines text).take n = (nonBlankLines t2).take n →
      parseResponse text n = parseResponse t2 n) :=
  ⟨parseResponse_length text n,
   fun i hi => parseResponse_getElem? text n i hi,
   fun line h => parseLine_no_dot line h,
   fun t2 h => parseResponse_truncates text t2 n h⟩

theorem claim_C2_witness :
    (parseResponse "1. a: b | c: d\ngarbage line\n3. x" 5).length = 5 ∧
    (parseResponse "1. a: b | c: d\ngarbage line\n3. x" 5)[1]? =
      some (((nonBlankLines "1. a: b | c: d\ngarbage line\n3. x")[1]?).elim
        ("", "") parseLine) ∧
    parseLine "garbage" = ("", "") ∧
    parseResponse "1. a: b | c: d\nEXTRA" 1 = parseResponse "1. a: b | c: d\nDIFFERENT" 1 :=
  ⟨(claim_C2 "1. a: b | c: d\ngarbage line\n3. x" 5).1,
   (claim_C2 "1. a: b | c: d\ngarbage line\n3. x" 5).2.1 1 (by decide),
   (claim_C2 "1. a: b | c: d\ngarbage line\n3. x" 5).2.2.1 "garbage" (by decide),
   (claim_C2 "1. a: b | c: d\nEXTRA" 1).2.2.2 "1. a: b | c: d\nDIFFERENT" (by decide)⟩

/-- Claim C3: the concurrent dispatcher is equivalent to the sequential
reference — partition the input into contiguous batches in order, apply
analyze_batch to each batch, concatenate — whatever order the concurrent
batches complete in (any permutation of the batch indices). -/
theorem claim_C3 (bs : Nat) (comments : List String) (oracle : Nat → Option String)
    (order : List Nat) (hbs : 1 ≤ bs)
    (hord : order.Perm (List.range (jobs bs comments).length)) :
    analyzeAllWith bs comments oracle order = sequentialReference bs comments oracle :=
  analyzeAllWith_eq_sequential bs comments oracle order hbs hord

theorem claim_C3_witness :
    analyzeAllWith 2 ["a", "b", "c"]
        (fun s => if s = 0
          then some "1. メインタグ: A | サブタグ: B\n2. メインタグ: C | サブタグ: D"
          else none) [1, 0] =
      sequentialReference 2 ["a", "b", "c"]
        (fun s => if s = 0
          then some "1. メインタグ: A | サブタグ: B\n2. メインタグ: C | サブタグ: D"
          else none) :=
  claim_C3 2 ["a", "b", "c"]
    (fun s => if s = 0
      then some "1. メインタグ: A | サブタグ: B\n2. メインタグ: C | サブタグ: D"
      else none) [1, 0] (by decide) (by decide)

/-- Claim C4: if the remote call fails for batch k only (the oracle answers
none at that batch's start position and is unchanged elsewhere), every
output position outside that batch's contiguous range holds exactly the
record of the fully successful run, and every position inside the range
holds the default empty record. -/
theorem claim_C4 (bs : Nat) (comments : List String) (oracle : Nat → Option String)
    (order : List Nat) (k s : Nat) (b : List String) (hbs : 1 ≤ bs)
    (hord : order.Perm (List.range (jobs bs comments).length))
    (hk : (jobs bs comments)[k]? = some (s, b)) :
    (∀ p, p < s ∨ s + b.length ≤ p →
      (analyzeAllWith bs comments (fun t => if t = s then none else oracle t) order)[p]? =
        (analyzeAllWith bs comments oracle order)[p]?) ∧
    (∀ p, s ≤ p → p < s + b.length →
      (analyzeAllWith bs comments (fun t => if t = s then none else oracle t) order)[p]? =
        some ("", "")) := by
  have heq1 := analyzeAllWith_eq_sequential bs comments
    (fun t => if t = s then none else oracle t) order hbs hord
  have heq2 := analyzeAllWith_eq_sequential bs comments oracle order hbs hord
  have hfr := sequential_frame bs hbs comments.length comments k s b oracle
    (fun t => if t = s then none else oracle t) (Nat.le_refl _) hk
    (fun t ht => if_neg ht) (if_pos rfl)
  obtain ⟨_, hsf, _, _, hbpos, hsb⟩ := jobs_facts bs hbs comments k s b hk
  have hlen : (sequentialReference bs comments oracle).length = comments.length :=
    sequentialReference_length bs hbs comments oracle
  rw [heq1, heq2, hfr]
  constructor
  · intro p hp
    rcases hp with hp | hp
    · rw [List.getElem?_append, List.length_take, if_pos (by omega),
        List.getElem?_take, if_pos hp]
    · rw [List.getElem?_append, List.length_take, if_neg (by omega),
        List.getElem?_append, List.length_replicate, if_neg (by omega),
        List.getElem?_drop]
      congr 1
      omega
  · intro p hp1 hp2
    rw [List.getElem?_append, List.length_take, if_neg (by omega),
      List.getElem?_append, List.length_replicate, if_pos (by omega),
      List.getElem?_replicate, if_pos (by omega)]

theorem claim_C4_witness :
    (analyzeAllWith 2 ["a", "b", "c", "d", "e"]
        (fun t => if t = 2 then none
          else (fun _ => some "1. メインタグ: A | サブタグ: B\n2. メインタグ: C | サブタグ: D") t)
        [2, 0, 1])[0]? =
      (analyzeAllWith 2 ["a", "b", "c", "d", "e"]
        (fun _ => some "1. メインタグ: A | サブタグ: B\n2. メインタグ: C | サブタグ: D")
        [2, 0, 1])[0]? ∧
    (analyzeAllWith 2 ["a", "b", "c", "d", "e"]
        (fun t => if t = 2 then none
          else (fun _ => some "1. メインタグ: A | サブタグ: B\n2. メインタグ: C | サブタグ: D") t)
        [2, 0, 1])[2]? = some ("", "") :=
  ⟨(claim_C4 2 ["a", "b", "c", "d", "e"]
      (fun _ => some "1. メインタグ: A | サブタグ: B\n2. メインタグ: C | サブタグ: D")
      [2, 0, 1] 1 2 ["c", "d"] (by decide) (by decide) (by decide)).1 0
      (Or.inl (by decide)),
   (claim_C4 2 ["a", "b", "c", "d", "e"]
      (fun _ => some "1. メインタグ: A | サブタグ: B\n2. メインタグ: C | サブタグ: D")
      [2, 0, 1] 1 2 ["c", "d"] (by decide) (by decide) (by decide)).2 2
      (by decide) (by decide)⟩

/-- Claim C5, counterexample: the spec's scenario text parses record 0 to
the fully empty record, not to (決済, クレジット, 店頭受取) — the line
has no colon inside its main part, so the parser's field extraction
raises and is caught. -/
theorem claim_C5_counterexample :
    (analyze_batch ["c1", "c2"]
        (some "1. 決済|クレジット, 店頭受取\n2. garbage\n"))[0]? ≠
      some ("決済", "クレジット, 店頭受取") := by
  decide

/-- Claim C5, amended: for the spec's exact scenario text both records of
the 2-item batch come out fully empty (line 1 lacks the colon-delimited
field markers the parser requires); with the colon-delimited format the
parser actually expects, record 0 carries primary tag 決済 with the two
secondary tags joined as クレジット, 店頭受取, and malformed line 2 still
yields an empty record. -/
theorem claim_C5 :
    analyze_batch ["c1", "c2"]
        (some "1. 決済|クレジット, 店頭受取\n2. garbage\n") =
      [("", ""), ("", "")] ∧
    analyze_batch ["c1", "c2"]
        (some "1. メインタグ: 決済 | サブタグ: クレジット, 店頭受取\n2. garbage\n") =
      [("決済", "クレジット, 店頭受取"), ("", "")] := by
  constructor <;> rfl

/-- Claim C6: batch partitioning is exhaustive and non-overlapping —
concatenating the batches in order reconstructs the input exactly, every
batch is at most bs long, and only the final batch may be shorter. -/
theorem claim_C6 (bs : Nat) (comments : List String) (hbs : 1 ≤ bs) :
    ((jobs bs comments).map Prod.snd).flatten = comments ∧
    (∀ b ∈ (jobs bs comments).map Prod.snd, b.length ≤ bs) ∧
    (∀ i b, ((jobs bs comments).map Prod.snd)[i]? = some b →
      i + 1 < (jobs bs comments).length → b.length = bs) :=
  ⟨jobs_flatten bs hbs comments.length comments (Nat.le_refl _),
   jobs_batch_le bs comments,
   fun i b hib hilt => jobs_batch_full bs hbs comments i b hib hilt⟩

theorem claim_C6_witness :
    ((jobs 2 ["a", "b", "c", "d", "e"]).map Prod.snd).flatten = ["a", "b", "c", "d", "e"] ∧
    (∀ b ∈ (jobs 2 ["a", "b", "c", "d", "e"]).map Prod.snd, b.length ≤ 2) ∧
    (∀ i b, ((jobs 2 ["a", "b", "c", "d", "e"]).map Prod.snd)[i]? = some b →
      i + 1 < (jobs 2 ["a", "b", "c", "d", "e"]).length → b.length = 2) :=
  claim_C6 2 ["a", "b", "c", "d", "e"] (by decide)

/-- Claim C7, counterexample: truncation to 200 characters does happen, yet
the prompt line built from a 250-character comment is 203 characters long —
the numbered prefix of the f-string pushes the line past 200. -/
theorem claim_C7_counterexample :
    (snippet (String.mk (List.replicate 250 'a'))).length = 200 ∧
    (promptLine 1 (snippet (String.mk (List.replicate 250 'a')))).length = 203 ∧
    200 < 203 := by
  have h1 : (snippet (String.mk (List.replicate 250 'a'))).length = 200 := by
    show (((String.mk (List.replicate 250 'a')).data.take 200).map
      (fun ch => if ch = '\n' then ' ' else ch)).length = 200
    rw [List.length_map, List.length_take]
    show min 200 (List.replicate 250 'a').length = 200
    rw [List.length_replicate]
    omega
  refine ⟨h1, ?_, by omega⟩
  rw [promptLine_length, h1, show (toString 1).length = 1 from rfl]

/-- Claim C7, amended: each comment's snippet is truncated to at most 200
characters and each internal newline is replaced by a space, so snippets and
whole prompt lines are newline-free; a prompt line's length, however, is the
snippet's length plus the width of its decimal item number plus two, so it
may exceed 200 characters. -/
theorem claim_C7 (c : String) (i : Nat) :
    (snippet c).length ≤ 200 ∧
    (snippet c).data.all (fun ch => ch ≠ '\n') = true ∧
    (promptLine i (snippet c)).data.all (fun ch => ch ≠ '\n') = true ∧
    (promptLine i (snippet c)).length = (toString i).length + 2 + (snippet c).length := by
  refine ⟨snippet_length c, ?_, ?_, promptLine_length i (snippet c)⟩
  · rw [List.all_eq_true]
    intro ch hch
    exact decide_eq_true (snippet_no_newline c ch hch)
  · rw [List.all_eq_true]
    intro ch hch
    rw [promptLine_data] at hch
    refine decide_eq_true ?_
    rcases List.mem_append.mp hch with h1 | h2
    · exact toString_nat_ne_newline i ch h1
    · rcases List.mem_cons.mp h2 with h3 | h4
      · rw [h3]; decide
      · rcases List.mem_cons.mp h4 with h5 | h6
        · rw [h5]; decide
        · exact snippet_no_newline c ch h6

/-- Claim C8, counterexample: a negative batch size does not fail at all —
batch construction yields no batches and analyze_all returns the input's
worth of default-empty records wrapped in ok. -/
theorem claim_C8_counterexample :
    analyzeAllE (-1) ["x"] (fun _ => none) [] = Except.ok [("", "")] := by
  rfl

/-- Claim C8, amended: the code has no ConfigError type and BATCH_SIZE is
the fixed constant 20; modelling a variable batch size through Python's
range, a batch size of exactly 0 raises ValueError when the range object is
built — before any remote work — while a negative batch size does not fail:
it yields zero batches and the run returns N default-empty records. -/
theorem claim_C8 (comments : List String) (oracle : Nat → Option String)
    (order : List Nat) (bs : Int) (hbs : bs < 0) :
    jobsE 0 comments = Except.error "range() arg 3 must not be zero" ∧
    analyzeAllE 0 comments oracle order =
      Except.error "range() arg 3 must not be zero" ∧
    analyzeAllE bs comments oracle order =
      Except.ok (List.replicate comments.length ("", "")) := by
  refine ⟨rfl, rfl, ?_⟩
  unfold analyzeAllE jobsE
  rw [if_neg (by omega), if_pos hbs]
  show Except.ok (order.foldl (dispatchStep oracle ([] : List (Nat × List String)))
      (List.replicate comments.length ("", ""))) = _
  have hfold : ∀ (ord : List Nat) (init : List (String × String)),
      ord.foldl (dispatchStep oracle ([] : List (Nat × List String))) init = init := by
    intro ord
    induction ord with
    | nil => intro init; rfl
    | cons j js ih =>
      intro init
      rw [List.foldl_cons, dispatchStep_none oracle [] init j (by simp), ih]
  rw [hfold]

theorem claim_C8_witness :
    jobsE 0 ["a", "b", "c"] = Except.error "range() arg 3 must not be zero" ∧
    analyzeAllE 0 ["a", "b", "c"] (fun _ => none) [0] =
      Except.error "range() arg 3 must not be zero" ∧
    analyzeAllE (-2) ["a", "b", "c"] (fun _ => none) [0] =
      Except.ok (List.replicate (["a", "b", "c"] : List String).length ("", "")) :=
  claim_C8 ["a", "b", "c"] (fun _ => none) [0] (-2) (by decide)

/-- Claim C9: cache round-trip — a Success outcome inserted for key K is
returned by a lookup of K strictly before the TTL expires and missed once
the TTL has expired, and Failure outcomes are never inserted. -/
theorem claim_C9 (c : Cache) (key : List String) (recs : List (String × String))
    (tIns tNow ttl : Nat) :
    (tNow < tIns + ttl →
      cacheLookup (cacheInsert c key (BatchOutcome.success recs) tIns) key tNow ttl =
        some (BatchOutcome.success recs)) ∧
    (tIns + ttl ≤ tNow →
      cacheLookup (cacheInsert c key (BatchOutcome.success recs) tIns) key tNow ttl =
        none) ∧
    (∀ reason, cacheInsert c key (BatchOutcome.failure reason) tIns = c) := by
  refine ⟨?_, ?_, fun reason => rfl⟩
  · intro h
    unfold cacheInsert cacheLookup
    rw [List.find?_cons_of_pos _ (by simp)]
    dsimp only
    rw [if_pos (by omega)]
  · intro h
    unfold cacheInsert cacheLookup
    rw [List.find?_cons_of_pos _ (by simp)]
    dsimp only
    rw [if_neg (by omega)]

theorem claim_C9_witness :
    cacheLookup (cacheInsert [] ["k"] (BatchOutcome.success [("a", "b")]) 100) ["k"]
        3699 3600 = some (BatchOutcome.success [("a", "b")]) ∧
    cacheLookup (cacheInsert [] ["k"] (BatchOutcome.success [("a", "b")]) 100) ["k"]
        3700 3600 = none ∧
    cacheInsert [] ["k"] (BatchOutcome.failure "boom") 100 = [] :=
  ⟨(claim_C9 [] ["k"] [("a", "b")] 100 3699 3600).1 (by omega),
   (claim_C9 [] ["k"] [("a", "b")] 100 3700 3600).2.1 (by omega),
   (claim_C9 [] ["k"] [("a", "b")] 100 0 0).2.2 "boom"⟩

/-- Claim C10: every record a fetched batch produces is a pair of plain
strings whose sub field is at most two parsed secondary tags flattened into
one string joined by a comma and space (the empty string standing for an
absent field), and records are correlated to response lines purely by
order — the text before the first period of a line is ignored. -/
theorem claim_C10 :
    (∀ (comments : List String) (text : String) (i : Nat) (r : String × String),
      (analyze_batch comments (some text))[i]? = some r →
      ∃ subs : List String, subs.length ≤ 2 ∧
        r.2 = String.intercalate ", " subs) ∧
    (∀ pre1 pre2 rest : String,
      (∀ c ∈ pre1.data, c ≠ '.') → (∀ c ∈ pre2.data, c ≠ '.') →
      parseLine (pre1 ++ "." ++ rest) = parseLine (pre2 ++ "." ++ rest)) :=
  ⟨analyze_batch_record_sub, parseLine_numeral_irrelevant⟩

theorem claim_C10_witness :
    (∃ subs : List String, subs.length ≤ 2 ∧
      (("b", "d") : String × String).2 = String.intercalate ", " subs) ∧
    parseLine ("1" ++ "." ++ " メインタグ: x | サブタグ: y") =
      parseLine ("42" ++ "." ++ " メインタグ: x | サブタグ: y") :=
  ⟨claim_C10.1 ["x"] "1. a: b | c: d" 0 ("b", "d") (by decide),
   claim_C10.2 "1" "42" " メインタグ: x | サブタグ: y" (by decide) (by decide)⟩
